import Mathlib

/-
Verification of wayback-discover-diff-go against its design document.

The development shallowly embeds the two core packages:
  * pkg/simhash (feature normalization, the weighted bit-vector
    fingerprint, and its base64 encoding/decoding), and
  * pkg/worker (capture enumeration, the per-capture processing step,
    and the per-job loop with its error budget),
as executable Lean functions, and proves or refutes the documented
properties about them.

External collaborators that are not part of this repository are
parameters of the embedding: the BLAKE2b-512 digest
(golang.org/x/crypto/blake2b) is a function argument returning the 64
digest bytes, the HTML parser (golang.org/x/net/html) is a function
argument turning fetched bytes into a feature multiset, the HTTP
responses of the capture index and the archive replay endpoint are
explicit values, and the persistence store (Redis) is an association
list threaded through the worker.
-/

namespace Simhash

/-- A feature multiset: Go's `map[string]int` from token to weight,
modelled as an association list (one entry per distinct token). -/
abbrev Features := List (String × Int)

/-- The external 512-bit digest: token bytes to the 64 digest bytes
(each `< 256`).  Stands for `blake2b.Sum512`. -/
abbrev HashFn := String → List Nat

/-- Embedding of `toBits` (simhash.go): bit `i` of the byte slice taken
most-significant-bit-first inside each byte, `false` past the end. -/
def toBits (hash : List Nat) (size : Nat) : List Bool :=
  (List.range size).map fun i =>
    if i < hash.length * 8 then
      ((hash.getD (i / 8) 0 >>> (7 - i % 8)) &&& 1) == 1
    else false

/-- One iteration of the per-feature loop of `CalculateSimHash`: add the
weight at every index whose digest bit is set, subtract it elsewhere. -/
def updateVectors (vectors : List Int) (hashBits : List Bool) (weight : Int)
    (size : Nat) : List Int :=
  (List.range size).map fun i =>
    if hashBits.getD i false then vectors.getD i 0 + weight
    else vectors.getD i 0 - weight

/-- The accumulator array after the feature loop of `CalculateSimHash`,
starting from `make([]int, size)` (all zeros). -/
def vectorsOf (h : HashFn) (features : Features) (size : Nat) : List Int :=
  features.foldl
    (fun vectors p => updateVectors vectors (toBits (h p.1) size) p.2 size)
    (List.replicate size 0)

/-- The final loop of `CalculateSimHash`: set bit `i` (least significant
bit first) whenever accumulator entry `i` is strictly positive. -/
def buildFingerprint (vectors : List Int) (size : Nat) : Nat :=
  (List.range size).foldl
    (fun simhash i =>
      if vectors.getD i 0 > 0 then simhash ||| (1 <<< i) else simhash)
    0

/-- Embedding of `CalculateSimHash` (simhash.go).  The Go code clamps
`size` to at most 64 and then runs `make([]int, size)`, which panics at
runtime when `size` is negative; the panic is modelled as `none`. -/
def CalculateSimHash (h : HashFn) (features : Features) (size : Int) :
    Option Nat :=
  let size := if size > 64 then 64 else size
  if size < 0 then none
  else
    some (buildFingerprint (vectorsOf h features size.toNat) size.toNat)

/-- The clamping actually performed by `CalculateSimHash` before the
accumulator array is allocated. -/
def clampSize (size : Int) : Int :=
  if size > 64 then 64 else size

/-- Reference definition following the design document's words (§4.2
step 2): bit `i` of the token's digest, most-significant-bit-first. -/
def specDigestBit (h : HashFn) (token : String) (i : Nat) : Bool :=
  Nat.testBit ((h token).getD (i / 8) 0) (7 - i % 8)

/-- Reference definition following the design document's words (§4.2
steps 1-2): accumulator entry `i` gains the weight of every token whose
digest bit `i` is 1 and loses the weight of every other token. -/
def specAccumulator (h : HashFn) (features : Features) (i : Nat) : Int :=
  (features.map fun p => if specDigestBit h p.1 i then p.2 else -p.2).sum

/-- Reference definition following the design document's words (§4.2
steps 3-4): final bit `i` is set iff accumulator entry `i` is strictly
positive, and is placed at position `i` with bit 0 least significant. -/
def specSimHash (h : HashFn) (features : Features) (size : Nat) : Nat :=
  ((List.range size).map fun i =>
    if specAccumulator h features i > 0 then 2 ^ i else 0).sum

/-- The standard base64 alphabet used by Go's `base64.StdEncoding`. -/
def base64Alphabet : List Char :=
  "ABCDEFGHIJKLMNOPQRSTUVWXYZabcdefghijklmnopqrstuvwxyz0123456789+/".toList

/-- Character for a six-bit group. -/
def encChar (n : Nat) : Char :=
  base64Alphabet.getD n '='

/-- Six-bit value of an alphabet character; `none` for characters
outside the alphabet (including the padding character). -/
def decChar (c : Char) : Option Nat :=
  base64Alphabet.indexOf? c

/-- Embedding of `base64.StdEncoding` encoding on raw bytes: each group
of three bytes becomes four alphabet characters; a final group of two or
one bytes is padded with one or two `=` characters. -/
def b64Encode : List Nat → List Char
  | b0 :: b1 :: b2 :: rest =>
      encChar (b0 / 4) :: encChar (b0 % 4 * 16 + b1 / 16) ::
      encChar (b1 % 16 * 4 + b2 / 64) :: encChar (b2 % 64) :: b64Encode rest
  | [b0, b1] =>
      [encChar (b0 / 4), encChar (b0 % 4 * 16 + b1 / 16),
       encChar (b1 % 16 * 4), '=']
  | [b0] =>
      [encChar (b0 / 4), encChar (b0 % 4 * 16), '=', '=']
  | [] => []

/-- Embedding of `base64.StdEncoding` decoding: four characters at a
time, honouring `=` padding in the final quantum; `none` on any
character outside the alphabet or on input whose length is not a
multiple of four. -/
def b64Decode : List Char → Option (List Nat)
  | [] => some []
  | c0 :: c1 :: c2 :: c3 :: rest =>
      match decChar c0, decChar c1 with
      | some n0, some n1 =>
        if c2 = '=' then
          if c3 = '=' ∧ rest = [] then some [n0 * 4 + n1 / 16] else none
        else
          match decChar c2 with
          | some n2 =>
            if c3 = '=' then
              if rest = [] then some [n0 * 4 + n1 / 16, n1 % 16 * 16 + n2 / 4]
              else none
            else
              match decChar c3, b64Decode rest with
              | some n3, some tail =>
                  some ((n0 * 4 + n1 / 16) :: (n1 % 16 * 16 + n2 / 4) ::
                        (n2 % 4 * 64 + n3) :: tail)
              | _, _ => none
          | none => none
      | _, _ => none
  | _ => none

/-- The byte slice built by `EncodeSimHash`: byte `i` is
`byte(simhash >> uint(i*8))`, i.e. bits `[8i, 8i+8)` of the fingerprint,
least-significant-byte-first. -/
def simhashBytes (simhash : Nat) : List Nat :=
  (List.range 8).map fun i => simhash >>> (i * 8) % 256

/-- Embedding of `EncodeSimHash` (simhash.go): serialize the fingerprint
as 8 little-endian bytes and base64-encode them. -/
def EncodeSimHash (simhash : Nat) : List Char :=
  b64Encode (simhashBytes simhash)

/-- Embedding of `DecodeSimHash` (simhash.go): base64-decode, then fold
at most the first 8 bytes back into the fingerprint with byte `i`
shifted to bit position `8i`. -/
def DecodeSimHash (encoded : List Char) : Option Nat :=
  (b64Decode encoded).map fun bytes =>
    (List.range (min bytes.length 8)).foldl
      (fun simhash i => simhash ||| bytes.getD i 0 <<< (i * 8)) 0

/-- ASCII fragment of Go's `unicode.IsLetter` (the full Unicode tables
live in the external standard library). -/
def goIsLetter (c : Char) : Bool :=
  c.isAlpha

/-- ASCII fragment of Go's `unicode.IsPunct` (Unicode category P). -/
def goIsPunct (c : Char) : Bool :=
  "!\"#%&()*,-./:;?@[\\]_".toList.contains c ∨ c = '\x7b' ∨ c = '\x7d'

/-- Embedding of `strings.ToLower` on the character list of a Go
string. -/
def goToLower (s : List Char) : List Char :=
  s.map Char.toLower

/-- Embedding of `strings.TrimSpace`: drop whitespace from both ends
only. -/
def goTrimSpace (s : List Char) : List Char :=
  ((s.dropWhile Char.isWhitespace).reverse.dropWhile Char.isWhitespace).reverse

/-- Worker for `goFields`: accumulate the current word (reversed) while
scanning. -/
def goFieldsAux (cur : List Char) : List Char → List (List Char)
  | [] => if cur.isEmpty then [] else [cur.reverse]
  | c :: rest =>
    if c.isWhitespace then
      if cur.isEmpty then goFieldsAux [] rest
      else cur.reverse :: goFieldsAux [] rest
    else goFieldsAux (c :: cur) rest

/-- Embedding of `strings.Fields`: split around whitespace, keeping only
the non-empty pieces. -/
def goFields (s : List Char) : List (List Char) :=
  goFieldsAux [] s

/-- The per-word normalization inside `ExtractHTMLFeatures` (simhash.go
lines 50-58): replace every punctuation or non-letter character by a
space via `strings.Map`, then `strings.TrimSpace`. -/
def normalizeWord (word : List Char) : List Char :=
  goTrimSpace (word.map fun r => if goIsPunct r ∨ ¬ goIsLetter r then ' ' else r)

/-- Increment of a token's count in the multiset (`features[word]++`). -/
def bumpFeature (features : Features) (w : String) : Features :=
  if features.any fun kv => kv.1 == w then
    features.map fun kv => if kv.1 == w then (kv.1, kv.2 + 1) else kv
  else
    features ++ [(w, 1)]

/-- Weight of a token in the multiset. -/
def featureCount (features : Features) (w : String) : Option Int :=
  (features.find? fun kv => kv.1 == w).map fun kv => kv.2

/-- Embedding of the text-processing stage of `ExtractHTMLFeatures`
(simhash.go lines 48-62), applied to the text accumulated by the tree
walk (the walk itself drives the external `golang.org/x/net/html`
parser): lower-case, split into words, normalize each word, and count
every word that did not normalize to the empty string. -/
def extractTextFeatures (text : List Char) : Features :=
  (goFields (goToLower text)).foldl
    (fun features word =>
      let w := normalizeWord word
      if ¬ w.isEmpty then bumpFeature features (String.mk w) else features)
    []

end Simhash

namespace Worker

open Simhash

/-- The persistence store (Redis), modelled as an association list from
key to stored value; `Set` prepends, `Exists` scans. -/
abbrev Store := List (String × String)

/-- Embedding of the `Exists` check on the store. -/
def storeHasKey (store : Store) (key : String) : Bool :=
  store.any fun kv => kv.1 == key

/-- Embedding of `Set` on the store (no expiry in the model). -/
def storeSet (store : Store) (key val : String) : Store :=
  (key, val) :: store

/-- The fingerprint key `simhash:<url>:<timestamp>` (worker.go line 89). -/
def simhashKey (url ts : String) : String :=
  "simhash:" ++ url ++ ":" ++ ts

/-- External collaborators and configuration of one job execution.
`download ts = none` models any failed capture fetch (transport error,
non-200 status, or non-HTML content type); `extract` stands for the
HTML parse and tree walk feeding `extractTextFeatures`. -/
structure Env where
  download : String → Option (List Nat)
  extract : List Nat → Features
  hashFn : HashFn
  size : Int
  maxErrors : Nat

/-- Outcome of processing a single capture. -/
inductive SnapOutcome
  | ok
  | err
  | crash
deriving DecidableEq

/-- Result of `processSnapshot`: the outcome, the store afterwards, and
the timestamps for which a content fetch was performed. -/
structure SnapResult where
  outcome : SnapOutcome
  store : Store
  fetched : List String
deriving DecidableEq

/-- Embedding of `processSnapshot` (worker.go lines 87-116): skip when
the key is already persisted (no fetch, no write), otherwise fetch,
extract features (empty multiset is a failure), fingerprint, encode and
persist.  `crash` models the Go panic that `CalculateSimHash` hits when
the configured size is negative. -/
def processSnapshot (env : Env) (store : Store) (url ts : String) :
    SnapResult :=
  let key := simhashKey url ts
  if storeHasKey store key then
    ⟨.ok, store, []⟩
  else
    match env.download ts with
    | none => ⟨.err, store, [ts]⟩
    | some content =>
      let features := env.extract content
      if features.length == 0 then ⟨.err, store, [ts]⟩
      else
        match CalculateSimHash env.hashFn features env.size with
        | none => ⟨.crash, store, [ts]⟩
        | some h => ⟨.ok, storeSet store key (String.mk (EncodeSimHash h)), [ts]⟩

/-- Terminal outcome of one job. -/
inductive JobResult
  | completed
  | budgetExceeded
  | crashed
  | noSnapshots
deriving DecidableEq

/-- Result of the per-job loop: terminal outcome, final store, all
timestamps fetched, all timestamps for which `processSnapshot` ran,
the timestamps that failed, and the final error counter. -/
structure LoopResult where
  result : JobResult
  store : Store
  fetched : List String
  attempted : List String
  failures : List String
  errs : Nat
deriving DecidableEq

/-- Embedding of the loop of `processURLForYear` (worker.go lines
69-82) without cancellation: process each timestamp in order; a failure
increments the error counter and, once the counter has reached
`maxErrors`, aborts the job with no further timestamps attempted. -/
def processLoop (env : Env) (store : Store) (url : String) (errs : Nat) :
    List String → LoopResult
  | [] => ⟨.completed, store, [], [], [], errs⟩
  | ts :: rest =>
    let r := processSnapshot env store url ts
    match r.outcome with
    | .crash => ⟨.crashed, r.store, r.fetched, [ts], [], errs⟩
    | .ok =>
      let k := processLoop env r.store url errs rest
      ⟨k.result, k.store, r.fetched ++ k.fetched, ts :: k.attempted,
       k.failures, k.errs⟩
    | .err =>
      if errs + 1 ≥ env.maxErrors then
        ⟨.budgetExceeded, r.store, r.fetched, [ts], [ts], errs + 1⟩
      else
        let k := processLoop env r.store url (errs + 1) rest
        ⟨k.result, k.store, r.fetched ++ k.fetched, ts :: k.attempted,
         ts :: k.failures, k.errs⟩

/-- Embedding of `getSnapshots` (worker.go lines 149-177) applied to the
decoded JSON rows of the index response: fewer than two rows is the
"no snapshots found" error; otherwise the second column of every
subsequent row that has one, in index order. -/
def getSnapshots (results : List (List String)) :
    Except String (List String) :=
  if results.length < 2 then .error "no snapshots found"
  else .ok ((results.drop 1).filterMap fun row =>
    if 1 < row.length then some (row.getD 1 "") else none)

/-- Embedding of `processURLForYear` (worker.go lines 61-85) fed with
the decoded index rows: an enumeration error is terminal with the error
counter untouched, otherwise the loop runs with a fresh zero counter
(the reset performed by `HandleCalculateSimHash`, worker.go line 54). -/
def processURLForYear (env : Env) (store : Store) (url : String)
    (rows : List (List String)) : LoopResult :=
  match getSnapshots rows with
  | .error _ => ⟨.noSnapshots, store, [], [], [], 0⟩
  | .ok snaps => processLoop env store url 0 snaps

/-- An HTTP response from the archive replay endpoint. -/
structure HTTPResponse where
  statusCode : Nat
  contentType : String
  body : List Nat
deriving DecidableEq

/-- Does `sub` occur as a contiguous run inside `l`? -/
def listContainsSeq (sub : List Char) : List Char → Bool
  | [] => sub.isEmpty
  | c :: rest => sub.isPrefixOf (c :: rest) ∨ listContainsSeq sub rest

/-- Embedding of `strings.Contains` on Go strings as character lists. -/
def goContains (s sub : List Char) : Bool :=
  listContainsSeq sub s

/-- Embedding of `isHTMLContent` (worker.go lines 191-194). -/
def isHTMLContent (contentType : String) : Bool :=
  goContains (Simhash.goToLower contentType.toList) "text/html".toList ∨
    goContains (Simhash.goToLower contentType.toList) "application/xhtml".toList

/-- The declared cap on downloaded bodies (worker.go line 22,
`maxDownloadSize`). -/
def maxDownloadSize : Nat := 1000000

/-- Embedding of `ioutil.ReadAll` as used by `downloadSnapshot`
(worker.go line 146): the whole remaining body, with no length limit. -/
def readAll (body : List Nat) : List Nat :=
  body

/-- Embedding of the response handling of `downloadSnapshot` (worker.go
lines 131-146): reject a non-200 status or a non-HTML content type,
otherwise return everything `readAll` yields. -/
def downloadSnapshot (resp : HTTPResponse) : Except String (List Nat) :=
  if resp.statusCode ≠ 200 then .error "unexpected status"
  else if ¬ isHTMLContent resp.contentType then .error "not HTML content"
  else .ok (readAll resp.body)

/-- Abstract outcome of one capture of a job, for the shared-counter
interleaving model. -/
inductive CaptureStep
  | ok
  | err
deriving DecidableEq

/-- Terminal state of a job in the interleaving model. -/
inductive SharedJobResult
  | completed
  | budgetExceeded
deriving DecidableEq

/-- Two jobs dispatched concurrently to the same `Worker` value: the
remaining captures of each job, their terminal results once finished,
and the single `downloadErrs` counter both jobs share, exactly as the
field of the long-lived `Worker` struct (worker.go lines 25-30). -/
structure SharedState where
  errs : Nat
  jobA : List CaptureStep
  jobB : List CaptureStep
  resultA : Option SharedJobResult
  resultB : Option SharedJobResult
deriving DecidableEq

/-- One loop iteration of `processURLForYear` for one job, operating on
the shared counter: a failure increments `errs` (worker.go lines 74-79,
179-189), and the job aborts once the shared counter has reached the
maximum.  `who = true` steps job A, `who = false` steps job B. -/
def sharedStep (maxErrors : Nat) (s : SharedState) (who : Bool) :
    SharedState :=
  if who then
    match s.resultA, s.jobA with
    | some _, _ => s
    | none, [] => { s with resultA := some .completed }
    | none, .ok :: rest => { s with jobA := rest }
    | none, .err :: rest =>
      if s.errs + 1 ≥ maxErrors then
        { s with errs := s.errs + 1, jobA := rest,
                 resultA := some .budgetExceeded }
      else { s with errs := s.errs + 1, jobA := rest }
  else
    match s.resultB, s.jobB with
    | some _, _ => s
    | none, [] => { s with resultB := some .completed }
    | none, .ok :: rest => { s with jobB := rest }
    | none, .err :: rest =>
      if s.errs + 1 ≥ maxErrors then
        { s with errs := s.errs + 1, jobB := rest,
                 resultB := some .budgetExceeded }
      else { s with errs := s.errs + 1, jobB := rest }

/-- Run a whole interleaving schedule. -/
def sharedRun (maxErrors : Nat) (s : SharedState) (schedule : List Bool) :
    SharedState :=
  schedule.foldl (sharedStep maxErrors) s

/-- Number of failing captures in a job's capture list. -/
def failCount (steps : List CaptureStep) : Nat :=
  (steps.filter fun st => st == .err).length

end Worker

/-- A concrete digest function for concrete evaluations: every token
digests to 64 zero bytes. -/
def zeroHash : Simhash.HashFn := fun _ => List.replicate 64 0

/-- A concrete digest function for concrete evaluations: every token
digests to 64 maximal bytes (all bits set). -/
def onesHash : Simhash.HashFn := fun _ => List.replicate 64 255

/-- A concrete job environment: three captures of which only `t2` fails
to download, a one-token feature multiset, width 4, budget 1. -/
def envA : Worker.Env :=
  { download := fun ts => if ts = "t2" then none else some [104, 105]
    extract := fun _ => [("hello", 1)]
    hashFn := onesHash
    size := 4
    maxErrors := 1 }

/-- The same environment with budget 2. -/
def envB : Worker.Env :=
  { envA with maxErrors := 2 }

namespace Simhash

/-- Helper: a value below `2 ^ k` ors with a multiple of `2 ^ k` as an
addition (the two operands occupy disjoint bit ranges). -/
theorem lor_mul_two_pow_eq_add (k : Nat) :
    ∀ a b : Nat, a < 2 ^ k → a ||| b * 2 ^ k = a + b * 2 ^ k := by
  induction k with
  | zero =>
    intro a b h
    have ha : a = 0 := by omega
    subst ha
    simp
  | succ k ih =>
    intro a b h
    have h2 : 2 ^ (k + 1) = 2 ^ k * 2 := by rw [pow_succ]
    have hy2 : b * 2 ^ (k + 1) % 2 = 0 := by
      rw [h2, ← Nat.mul_assoc]
      exact Nat.mul_mod_left _ 2
    have hydiv : b * 2 ^ (k + 1) / 2 = b * 2 ^ k := by
      rw [h2, ← Nat.mul_assoc]
      exact Nat.mul_div_cancel _ (by norm_num)
    have hmod : (a ||| b * 2 ^ (k + 1)) % 2 = a % 2 := by
      have hiff := Nat.or_mod_two_eq_one (a := a) (b := b * 2 ^ (k + 1))
      omega
    have hdiv : (a ||| b * 2 ^ (k + 1)) / 2 = a / 2 + b * 2 ^ k := by
      rw [Nat.or_div_two, hydiv]
      exact ih (a / 2) b (by omega)
    have hy : b * 2 ^ (k + 1) = b * 2 ^ k * 2 := by rw [h2, Nat.mul_assoc]
    omega

/-- Helper: the shift-based form of `lor_mul_two_pow_eq_add`. -/
theorem lor_shiftLeft_eq_add {k a : Nat} (b : Nat) (h : a < 2 ^ k) :
    a ||| b <<< k = a + b <<< k := by
  rw [Nat.shiftLeft_eq]
  exact lor_mul_two_pow_eq_add k a b h

/-- Helper: reading a mapped range list at an in-range index. -/
theorem getD_map_range {α : Type} (f : Nat → α) (d : α) {size i : Nat}
    (hi : i < size) : ((List.range size).map f).getD i d = f i := by
  rw [List.getD_eq_getElem?_getD, List.getElem?_map, List.getElem?_range hi]
  rfl

/-- The fingerprint assembly only sets bits below `size`. -/
theorem buildFingerprint_lt (vectors : List Int) (size : Nat) :
    buildFingerprint vectors size < 2 ^ size := by
  induction size with
  | zero => simp [buildFingerprint]
  | succ n ih =>
    have hstep :
        buildFingerprint vectors (n + 1)
          = (if vectors.getD n 0 > 0 then
              buildFingerprint vectors n ||| 1 <<< n
            else buildFingerprint vectors n) := by
      unfold buildFingerprint
      rw [List.range_succ, List.foldl_append]
      rfl
    rw [hstep]
    have hpow : 2 ^ n < 2 ^ (n + 1) := by
      have : (2 : Nat) ^ (n + 1) = 2 ^ n * 2 := by rw [pow_succ]
      omega
    split
    · have h1 : (1 <<< n : Nat) = 2 ^ n := by
        rw [Nat.shiftLeft_eq, one_mul]
      apply Nat.or_lt_two_pow <;> omega
    · omega

/-- The fingerprint assembly is the sum the design document describes:
`2 ^ i` contributed for every strictly positive accumulator entry. -/
theorem buildFingerprint_eq_sum (vectors : List Int) (size : Nat) :
    buildFingerprint vectors size
      = ((List.range size).map fun i =>
          if vectors.getD i 0 > 0 then 2 ^ i else 0).sum := by
  induction size with
  | zero => simp [buildFingerprint]
  | succ n ih =>
    have hstep :
        buildFingerprint vectors (n + 1)
          = (if vectors.getD n 0 > 0 then
              buildFingerprint vectors n ||| 1 <<< n
            else buildFingerprint vectors n) := by
      unfold buildFingerprint
      rw [List.range_succ, List.foldl_append]
      rfl
    rw [hstep, List.range_succ, List.map_append, List.sum_append, ← ih]
    have hlt := buildFingerprint_lt vectors n
    split
    · rename_i hc
      rw [lor_shiftLeft_eq_add 1 hlt, Nat.shiftLeft_eq, one_mul]
      simp only [List.map_cons, List.map_nil, List.sum_cons, List.sum_nil]
      rw [if_pos hc]
      omega
    · rename_i hc
      simp only [List.map_cons, List.map_nil, List.sum_cons, List.sum_nil]
      rw [if_neg hc]
      omega

/-- Bit `i` as `toBits` reads it agrees with the design document's
most-significant-bit-first reading of the digest. -/
theorem toBits_getD (hash : List Nat) {size i : Nat} (hi : i < size) :
    (toBits hash size).getD i false
      = Nat.testBit (hash.getD (i / 8) 0) (7 - i % 8) := by
  unfold toBits
  rw [getD_map_range _ _ hi]
  split
  · rename_i hin
    rw [Nat.testBit_to_div_mod, Nat.and_one_is_mod, Nat.shiftRight_eq_div_pow]
    exact Bool.beq_eq_decide_eq _ _
  · rename_i hin
    have hlen : hash.length ≤ i / 8 := by omega
    rw [List.getD_eq_getElem?_getD, List.getElem?_eq_none hlen]
    simp

/-- Unfolding one feature step of the accumulator loop. -/
theorem updateVectors_getD (vectors : List Int) (hashBits : List Bool)
    (weight : Int) {size i : Nat} (hi : i < size) :
    (updateVectors vectors hashBits weight size).getD i 0
      = (if hashBits.getD i false then vectors.getD i 0 + weight
         else vectors.getD i 0 - weight) := by
  unfold updateVectors
  rw [getD_map_range _ _ hi]

/-- The accumulator entry computed by the feature loop equals the
design document's accumulator. -/
theorem vectorsOf_getD (h : HashFn) (features : Features) {size i : Nat}
    (hi : i < size) :
    (vectorsOf h features size).getD i 0 = specAccumulator h features i := by
  suffices hgen : ∀ (fs : Features) (init : List Int),
      (fs.foldl
        (fun vectors p => updateVectors vectors (toBits (h p.1) size) p.2 size)
        init).getD i 0 = init.getD i 0 + specAccumulator h fs i by
    have := hgen features (List.replicate size 0)
    rw [vectorsOf, this, List.getD_eq_getElem?_getD]
    rw [List.getElem?_replicate]
    simp [hi]
  intro fs
  induction fs with
  | nil =>
    intro init
    simp [specAccumulator]
  | cons p fs ih =>
    intro init
    rw [List.foldl_cons, ih]
    rw [updateVectors_getD _ _ _ hi, toBits_getD _ hi]
    unfold specAccumulator specDigestBit
    rw [List.map_cons, List.sum_cons]
    split <;> ring

/-- C5: for every feature multiset and every size in [1,64],
`CalculateSimHash` equals the reference simhash definition: per distinct
token the first `size` bits of the digest are taken
most-significant-bit-first, the accumulator gains the weight where the
bit is 1 and loses it where it is 0, final bit `i` is set iff the
accumulator entry is strictly positive, and bit `i` sits at position `i`
with bit 0 least significant. -/
theorem calculateSimHash_meets_reference (h : HashFn) (features : Features)
    (size : Int) (h1 : 1 ≤ size) (h64 : size ≤ 64) :
    CalculateSimHash h features size
      = some (specSimHash h features size.toNat) := by
  have hclamp : (if size > 64 then (64 : Int) else size) = size :=
    if_neg (by omega)
  simp only [CalculateSimHash, hclamp]
  rw [if_neg (by omega : ¬ size < 0)]
  congr 1
  rw [buildFingerprint_eq_sum, specSimHash]
  congr 1
  apply List.map_congr_left
  intro i himem
  have hi : i < size.toNat := List.mem_range.mp himem
  rw [vectorsOf_getD h features hi]

/-- Witness for `calculateSimHash_meets_reference` at a concrete
multiset and size. -/
theorem calculateSimHash_meets_reference_witness :
    (1 : Int) ≤ 4 ∧ (4 : Int) ≤ 64 ∧
      CalculateSimHash onesHash [("hello", 1)] 4
        = some (specSimHash onesHash [("hello", 1)] (4 : Int).toNat) :=
  ⟨by norm_num, by norm_num,
    calculateSimHash_meets_reference onesHash [("hello", 1)] 4
      (by norm_num) (by norm_num)⟩

/-- C7: `CalculateSimHash` is deterministic and independent of the
iteration order over the multiset: any two enumeration orders of the
same multiset (modelled as permuted association lists) yield the same
fingerprint, for every configured size. -/
theorem calculateSimHash_deterministic (h : HashFn) {l1 l2 : Features}
    (hp : l1.Perm l2) (size : Int) :
    CalculateSimHash h l1 size = CalculateSimHash h l2 size := by
  have hacc : ∀ i, specAccumulator h l1 i = specAccumulator h l2 i := by
    intro i
    exact List.Perm.sum_eq (hp.map _)
  by_cases hneg : (if size > 64 then (64 : Int) else size) < 0
  · simp only [CalculateSimHash, if_pos hneg]
  · simp only [CalculateSimHash, if_neg hneg]
    congr 1
    rw [buildFingerprint_eq_sum, buildFingerprint_eq_sum]
    congr 1
    apply List.map_congr_left
    intro i himem
    have hi : i < (if size > 64 then (64 : Int) else size).toNat :=
      List.mem_range.mp himem
    rw [vectorsOf_getD h l1 hi, vectorsOf_getD h l2 hi, hacc i]

/-- Witness for `calculateSimHash_deterministic` at two concrete
enumeration orders of the same two-token multiset. -/
theorem calculateSimHash_deterministic_witness :
    ([("a", (1 : Int)), ("b", 2)].Perm [("b", 2), ("a", 1)]) ∧
      CalculateSimHash onesHash [("a", 1), ("b", 2)] 8
        = CalculateSimHash onesHash [("b", 2), ("a", 1)] 8 :=
  ⟨by decide, calculateSimHash_deterministic onesHash (by decide) 8⟩

/-- C2 counterexample: the claim asserts the configured width is clamped
into [1,64] and that the function stays well-defined for zero or
negative sizes; in the code only the upper bound is clamped, width 0 is
used as-is, and a negative size makes `make([]int, size)` panic
(modelled as `none`). -/
theorem calculateSimHash_clamp_counterexample :
    CalculateSimHash zeroHash [("a", 1)] (-1) = none ∧ clampSize 0 = 0 :=
  ⟨by decide, by decide⟩

/-- For a nonnegative configured size the fingerprint computation is
total and bounded by the effective width. -/
theorem calculateSimHash_total_of_nonneg (h : HashFn) (features : Features)
    (size : Int) (hpos : 0 ≤ size) :
    ∃ v, CalculateSimHash h features size = some v ∧
      v < 2 ^ (min size 64).toNat := by
  have hcl : ¬ (if size > 64 then (64 : Int) else size) < 0 := by
    split <;> omega
  have heq : (if size > 64 then (64 : Int) else size) = min size 64 := by
    split <;> omega
  simp only [CalculateSimHash, if_neg hcl]
  refine ⟨_, rfl, ?_⟩
  rw [heq]
  exact buildFingerprint_lt _ _

/-- C2 amended: `CalculateSimHash` clamps only the upper bound, so the
effective width is `min size 64` for every nonnegative configured size
(width 0, fingerprint 0, when the size is 0), and the function fails
(panics) for negative sizes. -/
theorem calculateSimHash_clamp_amended (h : HashFn) (features : Features)
    (size : Int) :
    clampSize size = min size 64 ∧
      (size < 0 → CalculateSimHash h features size = none) ∧
      (0 ≤ size → ∃ v, CalculateSimHash h features size = some v ∧
        v < 2 ^ (min size 64).toNat) := by
  refine ⟨?_, ?_, fun hpos => calculateSimHash_total_of_nonneg h features size hpos⟩
  · unfold clampSize
    split <;> omega
  · intro hneg
    have hcl : (if size > 64 then (64 : Int) else size) = size :=
      if_neg (by omega)
    simp only [CalculateSimHash, hcl]
    rw [if_pos hneg]

/-- Decoding an alphabet character inverts encoding a six-bit value. -/
theorem decChar_encChar : ∀ n, n < 64 → decChar (encChar n) = some n := by
  decide

/-- No six-bit value encodes to the padding character. -/
theorem encChar_ne_pad : ∀ n, n < 64 → encChar n ≠ '=' := by
  decide

/-- Base64 decoding inverts base64 encoding on byte lists. -/
theorem b64_roundtrip :
    ∀ bytes : List Nat, (∀ b ∈ bytes, b < 256) →
      b64Decode (b64Encode bytes) = some bytes
  | [], _ => rfl
  | [b0], hb => by
      have h0 : b0 < 256 := hb b0 (by simp)
      have e0 := decChar_encChar (b0 / 4) (by omega)
      have e1 := decChar_encChar (b0 % 4 * 16) (by omega)
      simp only [b64Encode, b64Decode, e0, e1]
      simp
      omega
  | [b0, b1], hb => by
      have h0 : b0 < 256 := hb b0 (by simp)
      have h1 : b1 < 256 := hb b1 (by simp)
      have e0 := decChar_encChar (b0 / 4) (by omega)
      have e1 := decChar_encChar (b0 % 4 * 16 + b1 / 16) (by omega)
      have e2 := decChar_encChar (b1 % 16 * 4) (by omega)
      have ne2 := encChar_ne_pad (b1 % 16 * 4) (by omega)
      simp only [b64Encode, b64Decode, e0, e1, e2, if_neg ne2]
      simp
      omega
  | b0 :: b1 :: b2 :: rest, hb => by
      have h0 : b0 < 256 := hb b0 (by simp)
      have h1 : b1 < 256 := hb b1 (by simp)
      have h2 : b2 < 256 := hb b2 (by simp)
      have ih := b64_roundtrip rest fun b hbm =>
        hb b (List.mem_cons_of_mem _ (List.mem_cons_of_mem _
          (List.mem_cons_of_mem _ hbm)))
      have e0 := decChar_encChar (b0 / 4) (by omega)
      have e1 := decChar_encChar (b0 % 4 * 16 + b1 / 16) (by omega)
      have e2 := decChar_encChar (b1 % 16 * 4 + b2 / 64) (by omega)
      have e3 := decChar_encChar (b2 % 64) (by omega)
      have ne2 := encChar_ne_pad (b1 % 16 * 4 + b2 / 64) (by omega)
      have ne3 := encChar_ne_pad (b2 % 64) (by omega)
      simp only [b64Encode, b64Decode, e0, e1, e2, e3, if_neg ne2, if_neg ne3,
        ih]
      simp
      omega

/-- Every byte produced by the fingerprint serialization is a byte. -/
theorem simhashBytes_lt (f : Nat) : ∀ b ∈ simhashBytes f, b < 256 := by
  intro b hbmem
  simp only [simhashBytes, List.mem_map] at hbmem
  obtain ⟨i, _, rfl⟩ := hbmem
  exact Nat.mod_lt _ (by norm_num)

/-- The little-endian byte fold of `DecodeSimHash` rebuilds the
fingerprint modulo `2 ^ (8 n)` after `n` bytes. -/
theorem bytesFold_mod (f : Nat) :
    ∀ n, n ≤ 8 →
      (List.range n).foldl
        (fun s i => s ||| (simhashBytes f).getD i 0 <<< (i * 8)) 0
        = f % 2 ^ (8 * n) := by
  intro n
  induction n with
  | zero =>
    intro _
    norm_num
    omega
  | succ k ih =>
    intro hk
    rw [List.range_succ, List.foldl_append, List.foldl_cons, List.foldl_nil,
      ih (by omega)]
    have hbyte : (simhashBytes f).getD k 0 = f >>> (k * 8) % 256 := by
      unfold simhashBytes
      exact getD_map_range _ _ (by omega)
    have hmodlt : f % 2 ^ (8 * k) < 2 ^ (8 * k) :=
      Nat.mod_lt _ (by positivity)
    rw [hbyte, Nat.shiftLeft_eq, Nat.shiftRight_eq_div_pow]
    rw [show k * 8 = 8 * k by ring]
    rw [lor_mul_two_pow_eq_add _ _ _ hmodlt]
    have hsplit : (2 : Nat) ^ (8 * (k + 1)) = 2 ^ (8 * k) * 2 ^ 8 := by
      rw [← pow_add]
      ring_nf
    rw [hsplit, Nat.mod_mul]
    have h256 : (2 : Nat) ^ 8 = 256 := by norm_num
    rw [h256]
    ring

/-- C6: for every representable 64-bit fingerprint value,
`DecodeSimHash (EncodeSimHash f)` returns `f`: the fingerprint is
serialized as 8 little-endian bytes, base64-encoded, and decoding
exactly reverses both steps. -/
theorem encode_decode_roundtrip (f : Nat) (hf : f < 2 ^ 64) :
    DecodeSimHash (EncodeSimHash f) = some f := by
  unfold DecodeSimHash EncodeSimHash
  rw [b64_roundtrip _ (simhashBytes_lt f)]
  have hlen : (simhashBytes f).length = 8 := by
    simp [simhashBytes]
  rw [Option.map_some', hlen]
  have hmin : min 8 8 = 8 := rfl
  rw [hmin, bytesFold_mod f 8 (by norm_num)]
  congr 1
  have h64 : (2 : Nat) ^ (8 * 8) = 2 ^ 64 := by norm_num
  rw [h64]
  exact Nat.mod_eq_of_lt hf

/-- Witness for `encode_decode_roundtrip` at a concrete fingerprint. -/
theorem encode_decode_roundtrip_witness :
    (12345678901234567890 : Nat) < 2 ^ 64 ∧
      DecodeSimHash (EncodeSimHash 12345678901234567890)
        = some 12345678901234567890 :=
  ⟨by norm_num, encode_decode_roundtrip 12345678901234567890 (by norm_num)⟩

/-- Witness for `calculateSimHash_clamp_amended` at concrete sizes on
both sides of zero. -/
theorem calculateSimHash_clamp_amended_witness :
    ((-2 : Int) < 0 → CalculateSimHash zeroHash [("a", 1)] (-2) = none) ∧
      ((0 : Int) ≤ 70 → ∃ v, CalculateSimHash zeroHash [("a", 1)] 70 = some v ∧
        v < 2 ^ (min (70 : Int) 64).toNat) :=
  ⟨(calculateSimHash_clamp_amended zeroHash [("a", 1)] (-2)).2.1,
   (calculateSimHash_clamp_amended zeroHash [("a", 1)] 70).2.2⟩

end Simhash

namespace Worker

open Simhash

/-- Skip behaviour of `processSnapshot`, stated first because the other
capture lemmas case on it: a capture whose fingerprint is already
persisted is neither fetched, nor recomputed, nor rewritten, and
succeeds. -/
theorem processSnapshot_skipExisting (env : Env) (store : Store)
    (url ts : String)
    (hex : storeHasKey store (simhashKey url ts) = true) :
    processSnapshot env store url ts = ⟨.ok, store, []⟩ := by
  unfold processSnapshot
  rw [if_pos hex]

/-- The store after one capture is either unchanged or extended with the
capture's own key. -/
theorem processSnapshot_store_cases (env : Env) (store : Store)
    (url ts : String) :
    (processSnapshot env store url ts).store = store ∨
      ∃ v, (processSnapshot env store url ts).store
        = storeSet store (simhashKey url ts) v := by
  by_cases hex : storeHasKey store (simhashKey url ts) = true
  · left
    rw [processSnapshot_skipExisting env store url ts hex]
  · unfold processSnapshot
    rw [if_neg hex]
    split
    · left; rfl
    · dsimp only
      split
      · left; rfl
      · split
        · left; rfl
        · right; exact ⟨_, rfl⟩

/-- Processing one capture never removes entries from the store. -/
theorem processSnapshot_store_mono (env : Env) (store : Store)
    (url ts : String) :
    ∀ kv ∈ store, kv ∈ (processSnapshot env store url ts).store := by
  intro kv hkv
  rcases processSnapshot_store_cases env store url ts with hc | ⟨v, hc⟩
  · rw [hc]; exact hkv
  · rw [hc]; exact List.mem_cons_of_mem _ hkv

/-- A successful capture leaves its key persisted. -/
theorem processSnapshot_ok_key (env : Env) (store : Store) (url ts : String)
    (hok : (processSnapshot env store url ts).outcome = .ok) :
    storeHasKey (processSnapshot env store url ts).store (simhashKey url ts)
      = true := by
  by_cases hex : storeHasKey store (simhashKey url ts) = true
  · rw [processSnapshot_skipExisting env store url ts hex]
    exact hex
  · unfold processSnapshot at hok ⊢
    rw [if_neg hex] at hok ⊢
    split at hok
    · simp at hok
    · dsimp only at hok ⊢
      split at hok
      · simp at hok
      · rename_i hfeat
        rw [if_neg hfeat]
        split at hok
        · simp at hok
        · simp [storeHasKey, storeSet]

/-- With a nonnegative configured size the fingerprint computation never
panics, so no capture can crash the job. -/
theorem processSnapshot_no_crash (env : Env) (store : Store)
    (url ts : String) (hsize : 0 ≤ env.size) :
    (processSnapshot env store url ts).outcome ≠ .crash := by
  by_cases hex : storeHasKey store (simhashKey url ts) = true
  · rw [processSnapshot_skipExisting env store url ts hex]
    simp
  · unfold processSnapshot
    rw [if_neg hex]
    split
    · simp
    · dsimp only
      split
      · simp
      · split
        · rename_i hcalc
          exfalso
          obtain ⟨v, hv, _⟩ :=
            calculateSimHash_total_of_nonneg env.hashFn _ env.size hsize
          rw [hv] at hcalc
          simp at hcalc
        · simp

/-- Unfolding the loop one capture at a time (pure zeta-expansion). -/
theorem processLoop_cons (env : Env) (store : Store) (url : String)
    (errs : Nat) (ts : String) (rest : List String) :
    processLoop env store url errs (ts :: rest)
      = (match (processSnapshot env store url ts).outcome with
         | .crash =>
           ⟨.crashed, (processSnapshot env store url ts).store,
            (processSnapshot env store url ts).fetched, [ts], [], errs⟩
         | .ok =>
           let k := processLoop env (processSnapshot env store url ts).store
             url errs rest
           ⟨k.result, k.store,
            (processSnapshot env store url ts).fetched ++ k.fetched,
            ts :: k.attempted, k.failures, k.errs⟩
         | .err =>
           if errs + 1 ≥ env.maxErrors then
             ⟨.budgetExceeded, (processSnapshot env store url ts).store,
              (processSnapshot env store url ts).fetched, [ts], [ts], errs + 1⟩
           else
             let k := processLoop env (processSnapshot env store url ts).store
               url (errs + 1) rest
             ⟨k.result, k.store,
              (processSnapshot env store url ts).fetched ++ k.fetched,
              ts :: k.attempted, ts :: k.failures, k.errs⟩) := rfl

/-- Loop step on a successful (or skipped) capture. -/
theorem processLoop_cons_ok (env : Env) (store : Store) (url : String)
    (errs : Nat) (ts : String) (rest : List String)
    (h : (processSnapshot env store url ts).outcome = .ok) :
    processLoop env store url errs (ts :: rest)
      = ⟨(processLoop env (processSnapshot env store url ts).store url errs
            rest).result,
         (processLoop env (processSnapshot env store url ts).store url errs
            rest).store,
         (processSnapshot env store url ts).fetched ++
           (processLoop env (processSnapshot env store url ts).store url errs
              rest).fetched,
         ts :: (processLoop env (processSnapshot env store url ts).store url
            errs rest).attempted,
         (processLoop env (processSnapshot env store url ts).store url errs
            rest).failures,
         (processLoop env (processSnapshot env store url ts).store url errs
            rest).errs⟩ := by
  rw [processLoop_cons, h]

/-- Loop step on a failing capture that exhausts the budget. -/
theorem processLoop_cons_err_abort (env : Env) (store : Store)
    (url : String) (errs : Nat) (ts : String) (rest : List String)
    (h : (processSnapshot env store url ts).outcome = .err)
    (hb : errs + 1 ≥ env.maxErrors) :
    processLoop env store url errs (ts :: rest)
      = ⟨.budgetExceeded, (processSnapshot env store url ts).store,
         (processSnapshot env store url ts).fetched, [ts], [ts],
         errs + 1⟩ := by
  rw [processLoop_cons, h]
  dsimp only
  rw [if_pos hb]

/-- Loop step on a failing capture within the budget. -/
theorem processLoop_cons_err_continue (env : Env) (store : Store)
    (url : String) (errs : Nat) (ts : String) (rest : List String)
    (h : (processSnapshot env store url ts).outcome = .err)
    (hb : ¬ errs + 1 ≥ env.maxErrors) :
    processLoop env store url errs (ts :: rest)
      = ⟨(processLoop env (processSnapshot env store url ts).store url
            (errs + 1) rest).result,
         (processLoop env (processSnapshot env store url ts).store url
            (errs + 1) rest).store,
         (processSnapshot env store url ts).fetched ++
           (processLoop env (processSnapshot env store url ts).store url
              (errs + 1) rest).fetched,
         ts :: (processLoop env (processSnapshot env store url ts).store url
            (errs + 1) rest).attempted,
         ts :: (processLoop env (processSnapshot env store url ts).store url
            (errs + 1) rest).failures,
         (processLoop env (processSnapshot env store url ts).store url
            (errs + 1) rest).errs⟩ := by
  rw [processLoop_cons, h]
  dsimp only
  rw [if_neg hb]

/-- The combined loop invariant: the attempted timestamps form a prefix
of the enumeration, every failure bumps the counter exactly once, the
store only grows, a budget abort happens exactly when the counter
reaches the maximum, and (crashes excluded by the nonnegative size) the
loop terminates either completed or budget-exceeded. -/
theorem processLoop_inv (env : Env) (url : String) (hsize : 0 ≤ env.size) :
    ∀ (snaps : List String) (store : Store) (errs : Nat),
      (∃ rest, snaps
          = (processLoop env store url errs snaps).attempted ++ rest) ∧
      (processLoop env store url errs snaps).errs
          = errs + (processLoop env store url errs snaps).failures.length ∧
      (∀ kv ∈ store, kv ∈ (processLoop env store url errs snaps).store) ∧
      ((processLoop env store url errs snaps).result = .budgetExceeded →
        env.maxErrors ≤ (processLoop env store url errs snaps).errs ∧
        (errs < env.maxErrors →
          (processLoop env store url errs snaps).errs = env.maxErrors)) ∧
      ((processLoop env store url errs snaps).result = .completed →
        (processLoop env store url errs snaps).attempted = snaps) ∧
      ((processLoop env store url errs snaps).result = .completed ∨
        (processLoop env store url errs snaps).result = .budgetExceeded) := by
  intro snaps
  induction snaps with
  | nil =>
    intro store errs
    refine ⟨⟨[], rfl⟩, ?_, ?_, ?_, ?_, ?_⟩ <;> simp [processLoop]
  | cons ts rest ih =>
    intro store errs
    rcases hout : (processSnapshot env store url ts).outcome with _ | _ | _
    · -- successful or skipped capture
      rw [processLoop_cons_ok env store url errs ts rest hout]
      obtain ⟨⟨tail, htail⟩, herrs, hmono, hbudget, hcomp, hres⟩ :=
        ih (processSnapshot env store url ts).store errs
      refine ⟨⟨tail, by simpa using htail⟩, by simpa using herrs, ?_, ?_, ?_, ?_⟩
      · intro kv hkv
        exact hmono kv (processSnapshot_store_mono env store url ts kv hkv)
      · intro hr
        exact hbudget (by simpa using hr)
      · intro hr
        have := hcomp (by simpa using hr)
        simp [this]
      · simpa using hres
    · -- failing capture
      by_cases hb : errs + 1 ≥ env.maxErrors
      · rw [processLoop_cons_err_abort env store url errs ts rest hout hb]
        refine ⟨⟨rest, rfl⟩, by simp, ?_, ?_, ?_, ?_⟩
        · intro kv hkv
          exact processSnapshot_store_mono env store url ts kv hkv
        · intro _
          constructor
          · simpa using hb
          · intro hlt
            simp
            omega
        · intro hr
          simp at hr
        · simp
      · rw [processLoop_cons_err_continue env store url errs ts rest hout hb]
        obtain ⟨⟨tail, htail⟩, herrs, hmono, hbudget, hcomp, hres⟩ :=
          ih (processSnapshot env store url ts).store (errs + 1)
        refine ⟨⟨tail, by simpa using htail⟩, ?_, ?_, ?_, ?_, ?_⟩
        · simp only []
          rw [herrs]
          simp
          omega
        · intro kv hkv
          exact hmono kv (processSnapshot_store_mono env store url ts kv hkv)
        · intro hr
          have hbud := hbudget (by simpa using hr)
          constructor
          · simpa using hbud.1
          · intro hlt
            have := hbud.2 (by omega)
            simpa using this
        · intro hr
          have := hcomp (by simpa using hr)
          simp [this]
        · simpa using hres
    · -- a crash is impossible with a nonnegative size
      exact absurd hout (processSnapshot_no_crash env store url ts hsize)

/-- C3: for a job whose enumeration succeeded, every capture failure
increments the error budget exactly once; as soon as the incremented
budget reaches the configured maximum the job terminates with the
budget-exceeded outcome, the attempted timestamps are a prefix of the
enumeration order (nothing later is attempted), and every fingerprint
persisted before the abort is still in the final store. -/
theorem errorBudget_enforcement (env : Env) (url : String)
    (snaps : List String) (store : Store)
    (hsize : 0 ≤ env.size) (hmax : 1 ≤ env.maxErrors) :
    (∃ rest, snaps = (processLoop env store url 0 snaps).attempted ++ rest) ∧
    (processLoop env store url 0 snaps).errs
        = (processLoop env store url 0 snaps).failures.length ∧
    (∀ kv ∈ store, kv ∈ (processLoop env store url 0 snaps).store) ∧
    ((processLoop env store url 0 snaps).result = .budgetExceeded →
      (processLoop env store url 0 snaps).errs = env.maxErrors) ∧
    ((processLoop env store url 0 snaps).result = .completed →
      (processLoop env store url 0 snaps).attempted = snaps) ∧
    ((processLoop env store url 0 snaps).result = .completed ∨
      (processLoop env store url 0 snaps).result = .budgetExceeded) := by
  obtain ⟨hpre, herrs, hmono, hbudget, hcomp, hres⟩ :=
    processLoop_inv env url hsize snaps store 0
  exact ⟨hpre, by simpa using herrs, hmono,
    fun hr => (hbudget hr).2 (by omega), hcomp, hres⟩

/-- Witness for `errorBudget_enforcement`: with budget 1 over three
captures of which the second fails, the job aborts with the budget
exhausted right after the second capture, the third capture is never
attempted, and the fingerprint persisted for the first capture
remains. -/
theorem errorBudget_enforcement_witness :
    ((0 : Int) ≤ envA.size ∧ 1 ≤ envA.maxErrors ∧
      ((processLoop envA [] "u" 0 ["t1", "t2", "t3"]).result
          = .budgetExceeded →
        (processLoop envA [] "u" 0 ["t1", "t2", "t3"]).errs
          = envA.maxErrors)) ∧
    (processLoop envA [] "u" 0 ["t1", "t2", "t3"]).result
        = .budgetExceeded ∧
    (processLoop envA [] "u" 0 ["t1", "t2", "t3"]).attempted
        = ["t1", "t2"] ∧
    storeHasKey (processLoop envA [] "u" 0 ["t1", "t2", "t3"]).store
        (simhashKey "u" "t1") = true :=
  ⟨⟨by decide, by decide,
    (errorBudget_enforcement envA "u" ["t1", "t2", "t3"] []
      (by decide) (by decide)).2.2.2.1⟩,
   by decide, by decide, by decide⟩

/-- C4: a capture whose fingerprint is already persisted is skipped:
no content fetch, no recomputation, no re-write, outcome successful (so
the budget is untouched); consequently a capture processed successfully
once is never fetched or written again, keeping at most one persisted
fingerprint per `(url, timestamp)` key. -/
theorem idempotentSkip (env : Env) (store : Store) (url ts : String) :
    (storeHasKey store (simhashKey url ts) = true →
      processSnapshot env store url ts = ⟨.ok, store, []⟩) ∧
    ((processSnapshot env store url ts).outcome = .ok →
      processSnapshot env (processSnapshot env store url ts).store url ts
        = ⟨.ok, (processSnapshot env store url ts).store, []⟩) :=
  ⟨processSnapshot_skipExisting env store url ts,
   fun hok => processSnapshot_skipExisting env _ url ts
     (processSnapshot_ok_key env store url ts hok)⟩

/-- Witness for `idempotentSkip`: a persisted capture is skipped
untouched, and a fresh successful capture is skipped on its second
processing. -/
theorem idempotentSkip_witness :
    (storeHasKey [(simhashKey "u" "t1", "v")] (simhashKey "u" "t1")
        = true ∧
      processSnapshot envB [(simhashKey "u" "t1", "v")] "u" "t1"
        = ⟨.ok, [(simhashKey "u" "t1", "v")], []⟩) ∧
    ((processSnapshot envB [] "u" "t1").outcome = .ok ∧
      processSnapshot envB (processSnapshot envB [] "u" "t1").store "u" "t1"
        = ⟨.ok, (processSnapshot envB [] "u" "t1").store, []⟩) :=
  ⟨⟨by decide,
    (idempotentSkip envB [(simhashKey "u" "t1", "v")] "u" "t1").1 (by decide)⟩,
   ⟨by decide, (idempotentSkip envB [] "u" "t1").2 (by decide)⟩⟩

/-- Rows that all carry a second column are enumerated by it. -/
theorem filterMap_second_eq_map (l : List (List String))
    (h : ∀ row ∈ l, 1 < row.length) :
    (l.filterMap fun row =>
        if 1 < row.length then some (row.getD 1 "") else none)
      = l.map fun row => row.getD 1 "" := by
  induction l with
  | nil => rfl
  | cons r l ih =>
    have hr : 1 < r.length := h r (List.mem_cons_self r l)
    rw [List.filterMap_cons, List.map_cons, if_pos hr,
      ih fun row hm => h row (List.mem_cons_of_mem _ hm)]

/-- C8: the enumerator returns the no-snapshots error exactly when the
decoded index response has fewer than two rows; otherwise it returns
the second column of every data row in index order; and the processor
propagates the error as the job's terminal outcome with the error
budget untouched and nothing attempted. -/
theorem noSnapshots_enumeration (env : Env) (store : Store) (url : String)
    (rows : List (List String)) :
    (getSnapshots rows = .error "no snapshots found" ↔ rows.length < 2) ∧
    ((∀ row ∈ rows.drop 1, 1 < row.length) → ¬ rows.length < 2 →
      getSnapshots rows = .ok ((rows.drop 1).map fun row => row.getD 1 "")) ∧
    (rows.length < 2 →
      processURLForYear env store url rows
        = ⟨.noSnapshots, store, [], [], [], 0⟩) := by
  refine ⟨?_, ?_, ?_⟩
  · unfold getSnapshots
    split <;> rename_i hlen
    · simp [hlen]
    · simp [hlen]
  · intro hrows hlen
    unfold getSnapshots
    rw [if_neg hlen, filterMap_second_eq_map _ hrows]
  · intro hlen
    unfold processURLForYear
    have herr : getSnapshots rows = .error "no snapshots found" := by
      unfold getSnapshots
      rw [if_pos hlen]
    rw [herr]

/-- Witness for `noSnapshots_enumeration`: a header-only response is the
no-snapshots error and terminates the job with the budget untouched; a
response with data rows enumerates their second columns. -/
theorem noSnapshots_enumeration_witness :
    (getSnapshots [["urlkey"]] = .error "no snapshots found"
        ↔ [["urlkey"]].length < 2) ∧
    processURLForYear envA [] "u" [["urlkey"]]
        = ⟨.noSnapshots, [], [], [], [], 0⟩ ∧
    getSnapshots [["urlkey"], ["a", "t1"], ["b", "t2"]]
        = .ok ["t1", "t2"] := by
  refine ⟨(noSnapshots_enumeration envA [] "u" [["urlkey"]]).1, ?_, ?_⟩
  · exact (noSnapshots_enumeration envA [] "u" [["urlkey"]]).2.2 (by decide)
  · have := (noSnapshots_enumeration envA [] "u"
      [["urlkey"], ["a", "t1"], ["b", "t2"]]).2.1 (by decide) (by decide)
    simpa using this

/-- The response handling of `downloadSnapshot` passes an HTML 200 body
through unchanged. -/
theorem downloadSnapshot_ok_html (body : List Nat) :
    downloadSnapshot ⟨200, "text/html", body⟩ = .ok body := by
  unfold downloadSnapshot
  rw [if_neg (by decide : ¬ ((200 : Nat) ≠ 200))]
  rw [if_neg (by decide : ¬ ¬ isHTMLContent "text/html" = true)]
  rfl

/-- C1 (bug evidence): `maxDownloadSize` is declared but never applied —
`downloadSnapshot` reads the body with `ioutil.ReadAll` and returns all
of it, so a 200 HTML response one byte over the cap comes back with
length strictly greater than 1,000,000. -/
theorem downloadSnapshot_unbounded :
    downloadSnapshot
        ⟨200, "text/html", List.replicate (maxDownloadSize + 1) 0⟩
      = .ok (List.replicate (maxDownloadSize + 1) 0) ∧
    maxDownloadSize
      < (List.replicate (maxDownloadSize + 1) (0 : Nat)).length := by
  refine ⟨downloadSnapshot_ok_html _, ?_⟩
  rw [List.length_replicate]
  omega

/-- C9 (bug evidence): because `downloadErrs` is a field of the shared
long-lived `Worker`, two jobs dispatched concurrently to the same worker
corrupt each other's budgets: with budget 2 and one failing capture per
job, the interleaved run aborts job B with `budgetExceeded` even though
job B alone has fewer failures than the budget and, run in isolation,
completes. -/
theorem sharedCounter_crossJob_interference :
    (sharedRun 2 ⟨0, [.err, .ok], [.err, .ok], none, none⟩
        [true, false, false, false, true, true]).resultB
      = some .budgetExceeded ∧
    failCount [.err, .ok] < 2 ∧
    (sharedRun 2 ⟨0, [], [.err, .ok], none, none⟩
        [false, false, false]).resultB
      = some .completed := by
  refine ⟨by decide, by decide, by decide⟩

end Worker

namespace Simhash

/-- C10: a whitespace-delimited word with a punctuation character
between letters has the character replaced by a space and is only
trimmed, never re-split, so the multiset receives the single key with
internal whitespace rather than two separate tokens; a word reduced to
the empty string is discarded. -/
theorem internalPunct_single_token :
    featureCount (extractTextFeatures "foo.bar".toList) "foo bar"
        = some 1 ∧
    featureCount (extractTextFeatures "foo.bar".toList) "foo" = none ∧
    featureCount (extractTextFeatures "foo.bar".toList) "bar" = none ∧
    extractTextFeatures ".".toList = [] := by
  refine ⟨by decide, by decide, by decide, by decide⟩

end Simhash
